import Mathlib

/-!
Verification of the Knowledge Retrieval & Adaptive Caching Engine
(`backend/app/utils/pinecone_service.py`,
`backend/app/services/enhanced_performance_service.py`,
`backend/app/utils/cache_manager.py`,
`backend/app/services/knowledge_service.py`).

Scores are modelled as rationals, timestamps as naturals, Python strings
as Lean `String`, Python dicts (which preserve insertion order) as
association lists `List (key × value)` with first-occurrence ordering.
-/

namespace IsaacMineo

/-- Python `needle in haystack` (substring containment) on char lists. -/
def listInfix : List Char → List Char → Bool
  | n, [] => n.isEmpty
  | n, c :: t => n.isPrefixOf (c :: t) || listInfix n t

/-- Python `needle in haystack` for strings. -/
def strIn (needle haystack : String) : Bool :=
  listInfix needle.data haystack.data

/-- Python `str.lower()` (character-wise lowercasing; the engine's
queries and keywords are ASCII, where this agrees with Python). -/
def strLower (s : String) : String :=
  ⟨s.data.map Char.toLower⟩

/-- `IndexType` enum from `pinecone_service.py`. -/
inductive IndexType
  | PROJECTS
  | PROFESSIONAL
  | PERSONAL
deriving DecidableEq, Repr

/-- The `.value` of each `IndexType` member (the Pinecone index name). -/
def IndexType.value : IndexType → String
  | .PROJECTS => "isaac-projects"
  | .PROFESSIONAL => "isaac-professional"
  | .PERSONAL => "isaac-personal"

/-- `list(IndexType)` in declaration order. -/
def allIndexTypes : List IndexType :=
  [.PROJECTS, .PROFESSIONAL, .PERSONAL]

/-- `project_keywords` from `classify_query`. -/
def project_keywords : List String :=
  ["project", "code", "github", "repository", "application", "app", "build", "develop",
   "nutrivize", "quizium", "echopodcast", "ai", "fastapi", "react", "python", "javascript",
   "technology", "stack", "framework", "api", "database", "feature", "implementation"]

/-- `professional_keywords` from `classify_query`. -/
def professional_keywords : List String :=
  ["resume", "cv", "experience", "work", "job", "career", "skill", "education", "university",
   "degree", "qualification", "employment", "professional", "background", "expertise"]

/-- `personal_keywords` from `classify_query`. -/
def personal_keywords : List String :=
  ["about", "personal", "hobby", "interest", "contact", "email", "phone", "location",
   "personality", "background", "story", "life", "passion", "goal", "aspiration"]

/-- The keyword list `classify_query` uses for a given index. -/
def keywordsFor : IndexType → List String
  | .PROJECTS => project_keywords
  | .PROFESSIONAL => professional_keywords
  | .PERSONAL => personal_keywords

/-- `sum(1 for keyword in keywords if keyword in query_lower)`:
the per-category score computed by `classify_query` (the query is
lower-cased before the substring tests). -/
def keywordScore (query : String) (it : IndexType) : Nat :=
  (keywordsFor it).countP (fun kw => strIn kw (strLower query))

/-- `classify_query` from `pinecone_service.py`: append each index whose
score is positive, in declaration order; if none scored, search all. -/
def classifyQuery (query : String) : List IndexType :=
  let sel :=
    (if 0 < keywordScore query .PROJECTS then [IndexType.PROJECTS] else []) ++
    (if 0 < keywordScore query .PROFESSIONAL then [IndexType.PROFESSIONAL] else []) ++
    (if 0 < keywordScore query .PERSONAL then [IndexType.PERSONAL] else [])
  if sel.isEmpty then allIndexTypes else sel

example : classifyQuery "tell me about your projects" = [.PROJECTS, .PERSONAL] := by decide

example : classifyQuery "zzz qqq" = allIndexTypes := by decide

/-! ### Hybrid search (`pinecone_service.py`) -/

/-- Python `\w` word characters (ASCII range, as used by the queries). -/
def isWordChar (c : Char) : Bool := c.isAlphanum || c == '_'

/-- Helper for `pyFindWords`: scan characters, collecting the current
word (reversed) in `acc`. -/
def findWordsAux : List Char → List Char → List String
  | [], acc => if acc.isEmpty then [] else [⟨acc.reverse⟩]
  | c :: t, acc =>
    if isWordChar c then findWordsAux t (c :: acc)
    else (if acc.isEmpty then [] else [⟨acc.reverse⟩]) ++ findWordsAux t []

/-- Python `re.findall(r'\b\w+\b', s)`: the maximal runs of word
characters in `s`. -/
def pyFindWords (s : String) : List String := findWordsAux s.data []

/-- `stop_words` from `extract_keywords`. -/
def stop_words : List String :=
  ["what", "how", "when", "where", "why", "who", "is", "are", "was", "were",
   "the", "a", "an", "and", "or", "but", "in", "on", "at", "to", "for",
   "of", "with", "by", "can", "could", "does", "do", "tell", "me", "about"]

/-- `extract_keywords` from `pinecone_service.py`: words of the
lower-cased query, minus stop words and words of length ≤ 2, first 5. -/
def extractKeywords (query : String) : List String :=
  ((pyFindWords (strLower query)).filter
    (fun w => !stop_words.contains w && 2 < w.length)).take 5

/-- A Vector Store match: similarity score plus the `text` and `source`
metadata fields the engine reads. -/
structure VMatch where
  score : ℚ
  text : String
  source : String
deriving DecidableEq, Repr

/-- The external collaborators (Embedding Provider and Vector Store),
each of which may fail; `pinecone_service.py` treats failures of either
as caught exceptions. -/
structure Env where
  embed : String → Except Unit (List ℚ)
  query : IndexType → List ℚ → Nat → Except Unit (List VMatch)

/-- A search-result dict as built by `semantic_search` /
`keyword_search`: `index_type` is stored as the `.value` string, and
`keyword_match` is present only on keyword-path hits. -/
structure Hit where
  content : String
  source : String
  score : ℚ
  indexType : String
  keywordMatch : Option String
deriving DecidableEq, Repr

/-- The result dict appended by `semantic_search` for a match. -/
def mkSemHit (it : IndexType) (m : VMatch) : Hit :=
  ⟨m.text, m.source, m.score, it.value, none⟩

/-- The result dict appended by `keyword_search` for a match
(`score + 0.1` boost, `keyword_match` recorded). -/
def mkKwHit (it : IndexType) (kw : String) (m : VMatch) : Hit :=
  ⟨m.text, m.source, m.score + 0.1, it.value, some kw⟩

/-- `semantic_search`: embed the query, query the index, keep matches
with `score > 0.75`. Returns the hit list together with the number of
Vector Store invocations (0 or 1); any collaborator failure is caught
and yields `[]`. -/
def semanticSearchC (env : Env) (query : String) (it : IndexType) (topK : Nat) :
    List Hit × Nat :=
  match env.embed query with
  | .error _ => ([], 0)
  | .ok v =>
    match env.query it v topK with
    | .error _ => ([], 1)
    | .ok ms => ((ms.filter (fun m => (0.75 : ℚ) < m.score)).map (mkSemHit it), 1)

/-- Python `content[:n]`. -/
def strTake (s : String) (n : Nat) : String := ⟨s.data.take n⟩

/-- The dedup key `f"{source}_{content[:n]}"` (`n` = 50 in
`keyword_search`, 100 in `fusion_rank`). -/
def dkey (n : Nat) (r : Hit) : String := r.source ++ "_" ++ strTake r.content n

/-- The `unique_results` dict idiom shared by `keyword_search` and
`fusion_rank`: iterate in order; a new key is appended, an existing key
is replaced only by a strictly higher-scoring duplicate (Python dicts
keep first-insertion order on value replacement). -/
def dedupBy (n : Nat) (results : List Hit) : List Hit :=
  results.foldl (fun acc r =>
    if acc.any (fun x => dkey n x == dkey n r) then
      acc.map (fun x => if dkey n x = dkey n r ∧ x.score < r.score then r else x)
    else acc ++ [r]) []

/-- The sort relation of
`sorted(l, key=lambda x: x['score'], reverse=True)`: descending by
score, an earlier element staying in front of a later one with an equal
score. -/
def scoreGE (a b : Hit) : Prop := b.score ≤ a.score

instance : DecidableRel scoreGE := fun a b => inferInstanceAs (Decidable (b.score ≤ a.score))

/-- Python `sorted(l, key=lambda x: x['score'], reverse=True)`.
CPython's `sorted` is a stable sort; every stable sort by the same key
computes the same list, so it is embedded as a stable insertion sort. -/
def sortByScoreDesc (l : List Hit) : List Hit :=
  l.insertionSort scoreGE

/-- The keyword loop of `keyword_search`: for each keyword, embed it and
query the index, keeping matches whose text contains the keyword.
The `Nat` counts Vector Store invocations; a collaborator failure
aborts the whole loop (the surrounding `except` discards all hits),
carrying the invocation count made so far. -/
def kwLoop (env : Env) (it : IndexType) (topK : Nat) :
    List String → Except Nat (List Hit × Nat)
  | [] => .ok ([], 0)
  | kw :: rest =>
    match env.embed kw with
    | .error _ => .error 0
    | .ok v =>
      match env.query it v topK with
      | .error _ => .error 1
      | .ok ms =>
        let hits := (ms.filter (fun m => strIn (strLower kw) (strLower m.text))).map
          (mkKwHit it kw)
        match kwLoop env it topK rest with
        | .error n => .error (1 + n)
        | .ok (hs, n) => .ok (hits ++ hs, 1 + n)

/-- `keyword_search`: run the keyword loop, then deduplicate by
`(source, content[:50])` and return the `topK` best by score; on any
failure return `[]`. Also returns the Vector Store invocation count. -/
def keywordSearchC (env : Env) (query : String) (it : IndexType) (topK : Nat) :
    List Hit × Nat :=
  match kwLoop env it topK (extractKeywords query) with
  | .error n => ([], n)
  | .ok (hits, n) => ((sortByScoreDesc (dedupBy 50 hits)).take topK, n)

/-- The per-hit boosting block of `fusion_rank`: the `if/elif` chain of
partition boosts (+0.1), then +0.05 when `keyword_match` is present,
then +0.02 when the content is longer than 500 characters. -/
def applyBoosts (query : String) (r : Hit) : Hit :=
  let ql := strLower query
  let s1 :=
    if strIn "projects" ql ∧ r.indexType = IndexType.PROJECTS.value then
      r.score + 0.1
    else if (["resume", "experience", "skill"].any (fun w => strIn w ql)) ∧
        r.indexType = IndexType.PROFESSIONAL.value then
      r.score + 0.1
    else if (["about", "contact", "personal"].any (fun w => strIn w ql)) ∧
        r.indexType = IndexType.PERSONAL.value then
      r.score + 0.1
    else r.score
  let s2 := if r.keywordMatch.isSome then s1 + 0.05 else s1
  let s3 := if 500 < r.content.length then s2 + 0.02 else s2
  { r with score := s3 }

/-- `fusion_rank`: deduplicate by `(source, content[:100])`, apply the
boosts, sort descending by final score (stable). -/
def fusionRank (results : List Hit) (query : String) : List Hit :=
  if results.isEmpty then []
  else sortByScoreDesc ((dedupBy 100 results).map (applyBoosts query))

/-- The `type_prefix` lookup of `format_context_piece`
(dict `.get` with default `"INFO"`). -/
def typePrefix (indexType : String) : String :=
  if indexType = IndexType.PROJECTS.value then "PROJECT INFO"
  else if indexType = IndexType.PROFESSIONAL.value then "PROFESSIONAL INFO"
  else if indexType = IndexType.PERSONAL.value then "PERSONAL INFO"
  else "INFO"

/-- Three-digit zero padding for `fmt3`. -/
def pad3 (n : Nat) : String :=
  if n < 10 then "00" ++ toString n
  else if n < 100 then "0" ++ toString n
  else toString n

/-- Python `f"{score:.3f}"` on the rational score model: round to three
decimal places (to nearest, half away from zero for the nonnegative
scores that occur) and render. -/
def fmt3 (q : ℚ) : String :=
  let m : Int := Int.floor (q * 1000 + 1 / 2)
  let a := m.natAbs
  (if m < 0 then "-" else "") ++ toString (a / 1000) ++ "." ++ pad3 (a % 1000)

/-- `format_context_piece`:
`f"[{type_prefix}] From {source} (relevance: {score:.3f}):\n{content}"`. -/
def formatContextPiece (r : Hit) : String :=
  "[" ++ typePrefix r.indexType ++ "] From " ++ r.source ++
    " (relevance: " ++ fmt3 r.score ++ "):\n" ++ r.content

/-- Python `sep.join(parts)`. -/
def pyJoin (sep : String) : List String → String
  | [] => ""
  | [x] => x
  | x :: xs => x ++ sep ++ pyJoin sep xs

/-- The hard-coded fallback string returned by
`KnowledgeBaseService.get_fallback_knowledge` (`knowledge_service.py`),
reached from `pinecone_service.get_fallback_knowledge`. -/
def fallbackKnowledge : String :=
  "\n        Isaac Mineo - Full-Stack Developer & AI Engineer\n        \n" ++
  "        TECHNICAL EXPERTISE:\n" ++
  "        • Frontend: React 18, JavaScript/TypeScript, Tailwind CSS, Vite\n" ++
  "        • Backend: FastAPI, Python, Node.js, RESTful APIs\n" ++
  "        • AI/ML: OpenAI APIs (GPT-4, Embeddings), Claude API, Pinecone vector search\n" ++
  "        • Databases: MongoDB, Redis, PostgreSQL, Firebase\n" ++
  "        • Cloud: Vercel, Render, AWS, Docker deployment\n        \n" ++
  "        FEATURED PROJECT - NUTRIVIZE:\n" ++
  "        AI-powered nutrition tracking application:\n" ++
  "        • Frontend: React PWA with offline capabilities\n" ++
  "        • Backend: FastAPI with MongoDB and Redis\n" ++
  "        • AI: OpenAI GPT-4 Vision for food recognition\n" ++
  "        • Live at: https://nutrivize.vercel.app\n        \n" ++
  "        PROFESSIONAL FOCUS:\n" ++
  "        • Building intelligent, scalable web applications\n" ++
  "        • AI integration and automation\n" ++
  "        • Clean, maintainable code with performance optimization\n" ++
  "        • Full-stack development with modern technologies\n        \n" ++
  "        CAREER GOALS:\n" ++
  "        Seeking backend, AI engineering, or full-stack roles in:\n" ++
  "        • HealthTech and wellness applications\n" ++
  "        • AI-powered productivity tools  \n" ++
  "        • Developer tooling and infrastructure\n" ++
  "        • Innovative startups with real-world impact\n        \n" ++
  "        CONTACT:\n" ++
  "        • Email: IsaacMineo@gmail.com\n" ++
  "        • GitHub: https://github.com/GoldenRodger5\n" ++
  "        • LinkedIn: https://linkedin.com/in/isaacmineo\n" ++
  "        • Portfolio: https://isaacmineo.com\n        "

/-- The gathering loop of `hybrid_search`: classify the query and, for
each selected index, run semantic then keyword search with `top_k//2`,
concatenating all hits. The `Nat` is the total number of Vector Store
invocations made. -/
def gatherStep (env : Env) (query : String) (topK : Nat) (acc : List Hit × Nat)
    (it : IndexType) : List Hit × Nat :=
  let sem := semanticSearchC env query it (topK / 2)
  let kw := keywordSearchC env query it (topK / 2)
  (acc.1 ++ sem.1 ++ kw.1, acc.2 + sem.2 + kw.2)

def allResultsC (env : Env) (query : String) (topK : Nat) : List Hit × Nat :=
  (classifyQuery query).foldl (gatherStep env query topK) ([], 0)

/-- `hybrid_search` (`Retrieve`), instrumented with the total number of
Vector Store invocations made during the call: gather hits across the
selected indexes, fusion-rank them, and format the top `top_k` pieces
joined by blank lines — or the fallback constant when there are none.
There is no cache lookup or store anywhere in this path. -/
def hybridSearchC (env : Env) (query : String) (topK : Nat) : String × Nat :=
  let gathered := allResultsC env query topK
  let ranked := fusionRank gathered.1 query
  let parts := (ranked.take topK).map formatContextPiece
  if parts.isEmpty then (fallbackKnowledge, gathered.2)
  else (pyJoin "\n\n" parts, gathered.2)

/-- `hybrid_search`'s return value (`search_knowledge_base` delegates
here unchanged). -/
def hybridSearch (env : Env) (query : String) (topK : Nat) : String :=
  (hybridSearchC env query topK).1

/-! ### Adaptive cache (`enhanced_performance_service.py`, `cache_manager.py`) -/

/-- Python dict `d.get(k)` on an insertion-ordered association list. -/
def pyGet {α : Type} (l : List (String × α)) (k : String) : Option α :=
  (l.find? (fun e => e.1 == k)).map (·.2)

/-- Python dict `d[k] = v`: replace in place when the key exists
(keeping its position), otherwise append. -/
def pySet {α : Type} (l : List (String × α)) (k : String) (v : α) : List (String × α) :=
  if l.any (fun e => e.1 == k) then l.map (fun e => if e.1 == k then (k, v) else e)
  else l ++ [(k, v)]

/-- Python `del d[k]`. -/
def pyDel {α : Type} (l : List (String × α)) (k : String) : List (String × α) :=
  l.filter (fun e => !(e.1 == k))

/-- A `memory_cache` entry: `{'data': ..., 'timestamp': ..., 'hits': ...}`. -/
structure MemEntry where
  data : String
  timestamp : Nat
  hits : Nat
deriving DecidableEq, Repr

/-- The mutable state of `EnhancedPerformanceService` touched by the
cache paths, plus the shared-tier (Redis) store itself. -/
structure PerfState where
  memoryCache : List (String × MemEntry)
  accessPatterns : List (String × List Nat)
  redis : List (String × String)
  memoryCacheHits : Nat
  explanationCacheHits : Nat
  explanationCacheMisses : Nat
deriving Repr

/-- Python exception kinds arising in the cache paths. -/
inductive PyErr
  | attributeError
deriving DecidableEq, Repr

/-- `self.cache_manager.get(cache_key)` as called by `smart_cache_get`.
`CacheManager` (`cache_manager.py`) defines only `connect`,
`get_session`, `cache_session`, `get_cached_response` and
`cache_response` — there is no method named `get`, so the attribute
lookup raises `AttributeError` before any Redis I/O happens. -/
def cacheManagerGet (_cacheKey : String) : Except PyErr (Option String) :=
  .error .attributeError

/-- `self.cache_manager.set(cache_key, value, expire=ttl)` as called by
`smart_cache_set`. `CacheManager` has no method named `set` either, so
this attribute lookup likewise raises `AttributeError`. -/
def cacheManagerSet (_cacheKey _value : String) (_expire : Nat) : Except PyErr Unit :=
  .error .attributeError

/-- `self.max_memory_cache_size`. -/
def maxMemoryCacheSize : Nat := 200

/-- `min(self.memory_cache.keys(), key=lambda k: ...['timestamp'])`:
the first entry (in insertion order) with the minimal timestamp.
Python `min` keeps the incumbent on ties, so it returns the first
minimum. -/
def firstOldest : List (String × MemEntry) → Option (String × MemEntry)
  | [] => none
  | e :: t =>
    some (t.foldl (fun best x => if x.2.timestamp < best.2.timestamp then x else best) e)

/-- `set_memory_cache`: when at (or beyond) capacity, first delete the
entry with the oldest timestamp, then store the new entry with the
current time and a zero hit counter. -/
def setMemoryCache (c : List (String × MemEntry)) (key data : String) (now : Nat) :
    List (String × MemEntry) :=
  let c1 :=
    if maxMemoryCacheSize ≤ c.length then
      match firstOldest c with
      | some old => pyDel c old.1
      | none => c
    else c
  pySet c1 key ⟨data, now, 0⟩

/-- `self.access_patterns[key].append(time.time())` (a `defaultdict(list)`). -/
def patternsAppend (ps : List (String × List Nat)) (key : String) (now : Nat) :
    List (String × List Nat) :=
  match pyGet ps key with
  | some l => pySet ps key (l ++ [now])
  | none => ps ++ [(key, [now])]

/-- `self.cache_ttl` from `EnhancedPerformanceService.__init__`. -/
def cacheTtl : List (String × Nat) :=
  [("explanation_hot", 3600), ("explanation_warm", 7200), ("explanation_cold", 14400),
   ("file_content", 3600), ("repo_tree", 1800), ("github_repos", 3600),
   ("search_results", 1800), ("user_session", 7200)]

/-- `self.cache_ttl.get(category, self.cache_ttl["explanation_warm"])`. -/
def cacheTtlBase (category : String) : Nat := (pyGet cacheTtl category).getD 7200

/-- The accesses to `key` within the last hour, as filtered by
`get_adaptive_ttl`. -/
def recentAccesses (ps : List (String × List Nat)) (key : String) (now : Nat) : List Nat :=
  ((pyGet ps key).getD []).filter (fun t => now - t < 3600)

/-- `get_adaptive_ttl`: more than 10 accesses in the last hour halves
the base TTL (floor 1800); more than 3 keeps it; otherwise it is
doubled (cap 28800). -/
def getAdaptiveTtl (ps : List (String × List Nat)) (key category : String) (now : Nat) : Nat :=
  let baseTtl := cacheTtlBase category
  let recent := recentAccesses ps key now
  if 10 < recent.length then max (baseTtl / 2) 1800
  else if 3 < recent.length then baseTtl
  else min (baseTtl * 2) 28800

/-- `should_memory_cache`: hot categories, or ≥ 2 accesses in the last
30 minutes. -/
def shouldMemoryCache (ps : List (String × List Nat)) (key category : String) (now : Nat) :
    Bool :=
  category == "explanation_hot" || category == "search_results" ||
    2 ≤ (((pyGet ps key).getD []).filter (fun t => now - t < 1800)).length

/-- `smart_cache_get(key, category)`: layer 1 is the in-process
`memory_cache` (fresh when younger than 300 s; an expired entry is
deleted); layer 2 is the shared tier via `self.cache_manager.get`,
whose `AttributeError` is swallowed by the surrounding `except`, which
returns `None`. Returns the value (or `None`) plus the new state. -/
def smartCacheGet (st : PerfState) (key category : String) (now : Nat) :
    Option String × PerfState :=
  let memoryKey := "mem:" ++ key
  let redisLayer := fun (st' : PerfState) =>
    match cacheManagerGet ("perf:" ++ category ++ ":" ++ key) with
    | .error _ => (none, st')
    | .ok r =>
      match r with
      | some v =>
        if v ≠ "" then
          (some v, { st' with
            explanationCacheHits := st'.explanationCacheHits + 1,
            memoryCache := setMemoryCache st'.memoryCache memoryKey v now })
        else (none, { st' with
          explanationCacheMisses := st'.explanationCacheMisses + 1 })
      | none => (none, { st' with
          explanationCacheMisses := st'.explanationCacheMisses + 1 })
  match pyGet st.memoryCache memoryKey with
  | some e =>
    if now - e.timestamp < 300 then
      (some e.data, { st with
        memoryCache := pySet st.memoryCache memoryKey { e with hits := e.hits + 1 },
        memoryCacheHits := st.memoryCacheHits + 1,
        accessPatterns := patternsAppend st.accessPatterns key now })
    else
      redisLayer { st with memoryCache := pyDel st.memoryCache memoryKey }
  | none => redisLayer st

/-- `smart_cache_set(key, data, category, custom_ttl)`: compute the TTL
(`custom_ttl or adaptive`; Python `or` falls through on `0`), then call
`self.cache_manager.set`, whose `AttributeError` is swallowed by the
surrounding `except` — so the function returns with the state
unchanged, and the memory-cache branch after the shared-tier write is
never reached. -/
def smartCacheSet (st : PerfState) (key data category : String) (customTtl : Option Nat)
    (now : Nat) : PerfState :=
  let ttl := match customTtl with
    | some c => if c ≠ 0 then c else getAdaptiveTtl st.accessPatterns key category now
    | none => getAdaptiveTtl st.accessPatterns key category now
  match cacheManagerSet ("perf:" ++ category ++ ":" ++ key) data ttl with
  | .error _ => st
  | .ok _ =>
    if shouldMemoryCache st.accessPatterns key category now then
      { st with memoryCache := setMemoryCache st.memoryCache ("mem:" ++ key) data now }
    else st

/-- Environment for the C5 boundary witness: a match at exactly 0.75
and one at 0.751. -/
def env5 : Env :=
  ⟨fun _ => .ok [1], fun _ _ _ => .ok [⟨0.75, "a", "s"⟩, ⟨0.751, "b", "s"⟩]⟩

/-- An environment in which both collaborators always fail. -/
def envFail : Env := ⟨fun _ => .error (), fun _ _ _ => .error ()⟩

/-- One step of the `unique_results` fold of `dedupBy`. -/
def dedupStep (n : Nat) (acc : List Hit) (r : Hit) : List Hit :=
  if acc.any (fun x => dkey n x == dkey n r) then
    acc.map (fun x => if dkey n x = dkey n r ∧ x.score < r.score then r else x)
  else acc ++ [r]

instance : IsTotal Hit scoreGE := ⟨fun a b => le_total b.score a.score⟩

instance : IsTrans Hit scoreGE := ⟨fun _ _ _ hab hbc => le_trans hbc hab⟩

/-- Hits for the C7 witness: two distinct keys with an exact score tie
plus a lower-scoring duplicate of the first key. -/
def w7a : Hit := ⟨"aaa", "s1", 1/2, "isaac-projects", none⟩

def w7b : Hit := ⟨"bbb", "s2", 1/2, "isaac-projects", none⟩

def w7dup : Hit := ⟨"aaa", "s1", 2/5, "isaac-projects", none⟩

def w7 : List Hit := [w7a, w7dup, w7b]

/-- Environment for the C10 witness: a single match of similarity 0.5
whose text contains the query keyword. -/
def env10 : Env := ⟨fun _ => .ok [1], fun _ _ _ => .ok [⟨1/2, "hello world", "src"⟩]⟩

/-- The surviving keyword hit for the C10 witness: 0.5 raw similarity,
0.6 after the keyword-search boost, 0.65 after fusion. -/
def r10 : Hit := ⟨"hello world", "src", 1/2 + 0.1 + 0.05, IndexType.PROJECTS.value, some "hello"⟩

/-- Environment for the C3 refutation: the Vector Store answers every
query (with no matches). -/
def env3 : Env := ⟨fun _ => .ok [1], fun _ _ _ => .ok []⟩

/-- Keys of the C8 witness cache, shaped like `smart_cache_get`'s
memory keys. -/
def w8key (i : Nat) : String := "mem:" ++ String.mk [Char.ofNat (33 + i)]

def wcache : List (String × MemEntry) :=
  (List.range 200).map (fun i => (w8key i, ⟨"d", i, 0⟩))

/-! ## Theorems -/

set_option maxRecDepth 8000

/-- C5: a Vector Store match is kept by semantic search if and only if
its similarity score is strictly greater than 0.75. -/
theorem semantic_quality_floor (env : Env) (q : String) (it : IndexType) (k : Nat)
    (v : List ℚ) (ms : List VMatch)
    (hv : env.embed q = .ok v) (hms : env.query it v k = .ok ms)
    (m : VMatch) (hm : m ∈ ms) :
    mkSemHit it m ∈ (semanticSearchC env q it k).1 ↔ (0.75 : ℚ) < m.score := by
  simp only [semanticSearchC, hv, hms]
  constructor
  · intro h
    rcases List.mem_map.mp h with ⟨m', hm', he⟩
    have hsc : m'.score = m.score := congrArg Hit.score he
    have := (List.mem_filter.mp hm').2
    simp only [decide_eq_true_eq] at this
    exact hsc ▸ this
  · intro h
    exact List.mem_map_of_mem _ (List.mem_filter.mpr ⟨hm, by simpa using h⟩)

/-- C5 witness: the 0.75-score match is excluded, the 0.751-score match
is included. -/
theorem semantic_quality_floor_witness :
    mkSemHit .PROJECTS ⟨0.75, "a", "s"⟩ ∉ (semanticSearchC env5 "q" .PROJECTS 3).1 ∧
    mkSemHit .PROJECTS ⟨0.751, "b", "s"⟩ ∈ (semanticSearchC env5 "q" .PROJECTS 3).1 := by
  constructor
  · intro h
    have := (semantic_quality_floor env5 "q" .PROJECTS 3 [1] _ rfl rfl
      ⟨0.75, "a", "s"⟩ (by simp)).mp h
    exact absurd this (by with_unfolding_all decide)
  · exact (semantic_quality_floor env5 "q" .PROJECTS 3 [1] _ rfl rfl
      ⟨0.751, "b", "s"⟩ (by simp)).mpr (by with_unfolding_all decide)

/-- C2 (amended): the adaptive TTL is the halved base TTL (floor 1800)
for more than 10 recent accesses, the base TTL for 4 to 10 recent
accesses, and the doubled base TTL (cap 28800) for at most 3 recent
accesses. -/
theorem adaptive_ttl_bands (ps : List (String × List Nat)) (key category : String)
    (now : Nat) :
    (10 < (recentAccesses ps key now).length →
      getAdaptiveTtl ps key category now = max (cacheTtlBase category / 2) 1800) ∧
    ((recentAccesses ps key now).length ≤ 10 → 3 < (recentAccesses ps key now).length →
      getAdaptiveTtl ps key category now = cacheTtlBase category) ∧
    ((recentAccesses ps key now).length ≤ 3 →
      getAdaptiveTtl ps key category now = min (cacheTtlBase category * 2) 28800) := by
  refine ⟨fun h => ?_, fun h1 h2 => ?_, fun h => ?_⟩ <;>
  · simp only [getAdaptiveTtl]
    split_ifs <;> first | rfl | omega

/-- C2 counterexample: a key with exactly 3 accesses in the last hour
and base TTL 7200 is stored with TTL 14400 (doubled), not 7200 as the
claim's inclusive 3–10 band requires. -/
theorem adaptive_ttl_three_access_counterexample :
    (recentAccesses [("k", [10, 20, 30])] "k" 100).length = 3 ∧
    cacheTtlBase "explanation_warm" = 7200 ∧
    getAdaptiveTtl [("k", [10, 20, 30])] "k" "explanation_warm" 100 = 14400 ∧
    (14400 : Nat) ≠ 7200 := by
  with_unfolding_all decide

/-- C2 witness: the three bands at 11, 5 and 1 recent accesses with
base TTL 7200. -/
theorem adaptive_ttl_bands_witness :
    getAdaptiveTtl [("k", List.replicate 11 5)] "k" "explanation_warm" 6 = 3600 ∧
    getAdaptiveTtl [("k", List.replicate 5 5)] "k" "explanation_warm" 6 = 7200 ∧
    getAdaptiveTtl [("k", [5])] "k" "explanation_warm" 6 = 14400 := by
  refine ⟨?_, ?_, ?_⟩
  · exact ((adaptive_ttl_bands _ "k" "explanation_warm" 6).1
      (by with_unfolding_all decide)).trans (by with_unfolding_all decide)
  · exact ((adaptive_ttl_bands _ "k" "explanation_warm" 6).2.1
      (by with_unfolding_all decide) (by with_unfolding_all decide)).trans
      (by with_unfolding_all decide)
  · exact ((adaptive_ttl_bands _ "k" "explanation_warm" 6).2.2
      (by with_unfolding_all decide)).trans (by with_unfolding_all decide)

/-- C9: `CacheManager` has no `get`/`set` methods, so every shared-tier
access raises `AttributeError` internally and is swallowed:
`smart_cache_get` returns a value exactly when the key sits in the
in-process memory cache with age under 300 seconds (and `None`
otherwise), and `smart_cache_set` leaves the entire state — in
particular the shared Redis tier — untouched. Neither function raises
(both are total functions of the state in this model; every exception
is consumed by their `except` blocks). -/
theorem shared_tier_attribute_error (st : PerfState) (key data category : String)
    (customTtl : Option Nat) (now : Nat) :
    ((smartCacheGet st key category now).1 =
      match pyGet st.memoryCache ("mem:" ++ key) with
      | some e => if now - e.timestamp < 300 then some e.data else none
      | none => none) ∧
    (smartCacheGet st key category now).2.redis = st.redis ∧
    smartCacheSet st key data category customTtl now = st := by
  refine ⟨?_, ?_, ?_⟩
  · simp only [smartCacheGet, cacheManagerGet]
    cases pyGet st.memoryCache ("mem:" ++ key) with
    | none => rfl
    | some e => by_cases h : now - e.timestamp < 300 <;> simp [h]
  · simp only [smartCacheGet, cacheManagerGet]
    cases pyGet st.memoryCache ("mem:" ++ key) with
    | none => rfl
    | some e => by_cases h : now - e.timestamp < 300 <;> simp [h]
  · simp only [smartCacheSet, cacheManagerSet]

/-- C6: `classify_query` is pure and deterministic; a partition is
selected exactly when its keyword count on the lower-cased query is
positive, except that when every partition's count is zero all
partitions are selected. -/
theorem classify_query_selection (q : String) (it : IndexType) :
    it ∈ classifyQuery q ↔
      (0 < keywordScore q it ∨ ∀ it', keywordScore q it' = 0) := by
  rcases Nat.eq_zero_or_pos (keywordScore q IndexType.PROJECTS) with h1 | h1 <;>
  rcases Nat.eq_zero_or_pos (keywordScore q IndexType.PROFESSIONAL) with h2 | h2 <;>
  rcases Nat.eq_zero_or_pos (keywordScore q IndexType.PERSONAL) with h3 | h3 <;>
  cases it <;>
  simp_all [classifyQuery, allIndexTypes] <;>
  first
    | (intro it'; cases it' <;> assumption)
    | exact ⟨IndexType.PROJECTS, by omega⟩
    | exact ⟨IndexType.PROFESSIONAL, by omega⟩
    | exact ⟨IndexType.PERSONAL, by omega⟩

/-- The three Pinecone index names are pairwise distinct. -/
lemma value_ne_PJ_PF : IndexType.PROJECTS.value ≠ IndexType.PROFESSIONAL.value := by decide

lemma value_ne_PJ_PS : IndexType.PROJECTS.value ≠ IndexType.PERSONAL.value := by decide

lemma value_ne_PF_PJ : IndexType.PROFESSIONAL.value ≠ IndexType.PROJECTS.value := by decide

lemma value_ne_PF_PS : IndexType.PROFESSIONAL.value ≠ IndexType.PERSONAL.value := by decide

lemma value_ne_PS_PJ : IndexType.PERSONAL.value ≠ IndexType.PROJECTS.value := by decide

lemma value_ne_PS_PF : IndexType.PERSONAL.value ≠ IndexType.PROFESSIONAL.value := by decide

/-- C1 (amended): the per-hit boosts of `fusion_rank` are additive
independent checks, but against the ranker's own fixed term lists —
the literal substring `"projects"` for PROJECTS,
`"resume"/"experience"/"skill"` for PROFESSIONAL and
`"about"/"contact"/"personal"` for PERSONAL — not the (much larger)
keyword-to-partition table of `classify_query`. Each rule can fire only
for hits of its own partition, so the `elif` chain of the source equals
this sum of independent indicators; boosts change nothing but the
score. -/
theorem fusion_partition_boosts (q : String) (r : Hit) :
    (applyBoosts q r).content = r.content ∧
    (applyBoosts q r).source = r.source ∧
    (applyBoosts q r).indexType = r.indexType ∧
    (applyBoosts q r).keywordMatch = r.keywordMatch ∧
    (applyBoosts q r).score = r.score
      + (if strIn "projects" (strLower q) ∧ r.indexType = IndexType.PROJECTS.value
          then (0.1 : ℚ) else 0)
      + (if (["resume", "experience", "skill"].any fun w => strIn w (strLower q)) ∧
            r.indexType = IndexType.PROFESSIONAL.value then (0.1 : ℚ) else 0)
      + (if (["about", "contact", "personal"].any fun w => strIn w (strLower q)) ∧
            r.indexType = IndexType.PERSONAL.value then (0.1 : ℚ) else 0)
      + (if r.keywordMatch.isSome then (0.05 : ℚ) else 0)
      + (if 500 < r.content.length then (0.02 : ℚ) else 0) := by
  refine ⟨rfl, rfl, rfl, rfl, ?_⟩
  by_cases e1 : r.indexType = IndexType.PROJECTS.value <;>
  by_cases e2 : r.indexType = IndexType.PROFESSIONAL.value <;>
  by_cases e3 : r.indexType = IndexType.PERSONAL.value <;>
  first
    | exact absurd (e1.symm.trans e2) (by decide)
    | exact absurd (e1.symm.trans e3) (by decide)
    | exact absurd (e2.symm.trans e3) (by decide)
    | (simp only [applyBoosts, e1, e2, e3, value_ne_PJ_PF, value_ne_PJ_PS, value_ne_PF_PJ,
         value_ne_PF_PS, value_ne_PS_PJ, value_ne_PS_PF, eq_self_iff_true,
         and_true, and_false, if_true, if_false]
       split_ifs <;> ring)

/-- C1 counterexample: the classifier's table maps the query
`"project"` to PROJECTS (so the claim requires a +0.1 boost for a
PROJECTS hit), but `fusion_rank` checks the literal `"projects"` and
leaves the hit's score unchanged. -/
theorem fusion_boost_not_classifier_map :
    0 < keywordScore "project" IndexType.PROJECTS ∧
    classifyQuery "project" = [IndexType.PROJECTS] ∧
    fusionRank [⟨"x", "s", 1/2, IndexType.PROJECTS.value, none⟩] "project"
      = [⟨"x", "s", 1/2, IndexType.PROJECTS.value, none⟩] ∧
    ((1 : ℚ)/2 ≠ 1/2 + 0.1) := by
  with_unfolding_all decide

/-- Every piece rendered by `format_context_piece` starts with a
bracketed partition label, hence is non-empty. -/
lemma formatContextPiece_length_pos (r : Hit) : 0 < (formatContextPiece r).length := by
  simp only [formatContextPiece, String.length_append]
  have h1 : "[".length = 1 := rfl
  omega

lemma length_pos_ne_empty {s : String} (h : 0 < s.length) : s ≠ "" := by
  intro he
  rw [he] at h
  simp at h

lemma pyJoin_ne_empty (sep : String) (x : String) (xs : List String) (hx : 0 < x.length) :
    pyJoin sep (x :: xs) ≠ "" := by
  cases xs with
  | nil => simpa [pyJoin] using length_pos_ne_empty hx
  | cons y ys =>
    apply length_pos_ne_empty
    simp only [pyJoin, String.length_append]
    omega

/-- C4: `Retrieve` is total and never returns an empty string — for
every query and every behaviour of the collaborators (including
arbitrary embedding / Vector Store failures, which the model's `Env`
surfaces as `Except` errors that the code catches), `hybrid_search`
returns a non-empty string, and when ranking produces nothing it
returns exactly the fallback knowledge constant. The model's return
type (`String`, not `Except`) reflects that every exception is caught
inside `hybrid_search`. -/
theorem retrieve_total_nonempty (env : Env) (q : String) (k : Nat) :
    hybridSearch env q k ≠ "" ∧
    (fusionRank (allResultsC env q k).1 q = [] → hybridSearch env q k = fallbackKnowledge) := by
  constructor
  · show (hybridSearchC env q k).1 ≠ ""
    simp only [hybridSearchC]
    cases hp : ((fusionRank (allResultsC env q k).1 q).take k).map formatContextPiece with
    | nil => simp [hp]; decide
    | cons x xs =>
      simp only [hp, List.isEmpty_cons, if_false]
      have hx : 0 < x.length := by
        have : x ∈ ((fusionRank (allResultsC env q k).1 q).take k).map formatContextPiece := by
          rw [hp]; exact List.mem_cons_self x xs
        rcases List.mem_map.mp this with ⟨r, -, hr⟩
        rw [← hr]
        exact formatContextPiece_length_pos r
      exact pyJoin_ne_empty _ x xs hx
  · intro h
    show (hybridSearchC env q k).1 = fallbackKnowledge
    simp [hybridSearchC, h]

/-- C4 witness: with every collaborator call failing, `Retrieve`
returns the (non-empty) fallback constant rather than raising. -/
theorem retrieve_total_nonempty_witness :
    hybridSearch envFail "hi" 8 ≠ "" ∧ hybridSearch envFail "hi" 8 = fallbackKnowledge := by
  refine ⟨(retrieve_total_nonempty envFail "hi" 8).1,
    (retrieve_total_nonempty envFail "hi" 8).2 ?_⟩
  with_unfolding_all decide


lemma dedupBy_eq_foldl (n : Nat) (l : List Hit) : dedupBy n l = l.foldl (dedupStep n) [] := rfl

/-- The fold invariant of the `unique_results` dict: the accumulator has
pairwise-distinct keys, holds only already-seen elements, holds a
maximal-score element for each key, and covers every key seen so far. -/
lemma dedup_fold_invariant (n : Nat) :
    ∀ (l acc processed : List Hit),
      acc.Pairwise (fun a b => dkey n a ≠ dkey n b) →
      (∀ x ∈ acc, x ∈ processed) →
      (∀ x ∈ acc, ∀ y ∈ processed, dkey n y = dkey n x → y.score ≤ x.score) →
      (∀ y ∈ processed, ∃ x ∈ acc, dkey n x = dkey n y) →
      (l.foldl (dedupStep n) acc).Pairwise (fun a b => dkey n a ≠ dkey n b) ∧
      (∀ x ∈ l.foldl (dedupStep n) acc, x ∈ processed ++ l) ∧
      (∀ x ∈ l.foldl (dedupStep n) acc, ∀ y ∈ processed ++ l,
        dkey n y = dkey n x → y.score ≤ x.score) ∧
      (∀ y ∈ processed ++ l, ∃ x ∈ l.foldl (dedupStep n) acc, dkey n x = dkey n y)
  | [], acc, processed, hpair, hmem, hmax, hcov => by
    simp only [List.foldl_nil, List.append_nil]
    exact ⟨hpair, hmem, hmax, hcov⟩
  | r :: l, acc, processed, hpair, hmem, hmax, hcov => by
    have key : ∀ x : Hit,
        dkey n (if dkey n x = dkey n r ∧ x.score < r.score then r else x) = dkey n x := by
      intro x
      split_ifs with h
      · exact h.1.symm
      · rfl
    have step_eq : (r :: l).foldl (dedupStep n) acc = l.foldl (dedupStep n) (dedupStep n acc r) :=
      rfl
    have happ : processed ++ r :: l = (processed ++ [r]) ++ l := by simp
    by_cases hany : acc.any (fun x => dkey n x == dkey n r) = true
    · rcases List.any_eq_true.mp hany with ⟨x0, hx0, hbeq⟩
      have hx0k : dkey n x0 = dkey n r := by simpa using hbeq
      have hstep : dedupStep n acc r =
          acc.map (fun x => if dkey n x = dkey n r ∧ x.score < r.score then r else x) := by
        simp [dedupStep, hany]
      have h1 : (dedupStep n acc r).Pairwise (fun a b => dkey n a ≠ dkey n b) := by
        rw [hstep, List.pairwise_map]
        refine hpair.imp_of_mem ?_
        intro a b _ _ hab
        rw [key a, key b]
        exact hab
      have h2 : ∀ x ∈ dedupStep n acc r, x ∈ processed ++ [r] := by
        rw [hstep]
        intro x hx
        rcases List.mem_map.mp hx with ⟨z, hz, hzx⟩
        by_cases hc : dkey n z = dkey n r ∧ z.score < r.score
        · have hxr : x = r := by rw [← hzx, if_pos hc]
          rw [hxr]
          exact List.mem_append_right _ (List.mem_singleton_self r)
        · have hxz : x = z := by rw [← hzx, if_neg hc]
          rw [hxz]
          exact List.mem_append_left _ (hmem z hz)
      have h3 : ∀ x ∈ dedupStep n acc r, ∀ y ∈ processed ++ [r],
          dkey n y = dkey n x → y.score ≤ x.score := by
        rw [hstep]
        intro x hx y hy hk
        rcases List.mem_map.mp hx with ⟨z, hz, hzx⟩
        have hkx : dkey n x = dkey n z := by rw [← hzx]; exact key z
        rcases List.mem_append.mp hy with hyp | hyr
        · by_cases hc : dkey n z = dkey n r ∧ z.score < r.score
          · have hxr : x = r := by rw [← hzx, if_pos hc]
            have hyz : y.score ≤ z.score := hmax z hz y hyp (hk.trans hkx)
            rw [hxr]
            exact le_trans hyz (le_of_lt hc.2)
          · have hxz : x = z := by rw [← hzx, if_neg hc]
            rw [hxz]
            exact hmax z hz y hyp (hk.trans hkx)
        · have hyr' : y = r := List.mem_singleton.mp hyr
          by_cases hc : dkey n z = dkey n r ∧ z.score < r.score
          · have hxr : x = r := by rw [← hzx, if_pos hc]
            rw [hyr', hxr]
          · have hxz : x = z := by rw [← hzx, if_neg hc]
            have hzk : dkey n z = dkey n r := by rw [← hkx, ← hk, hyr']
            have hnlt : ¬ z.score < r.score := fun hlt => hc ⟨hzk, hlt⟩
            rw [hyr', hxz]
            exact le_of_not_lt hnlt
      have h4 : ∀ y ∈ processed ++ [r], ∃ x ∈ dedupStep n acc r, dkey n x = dkey n y := by
        rw [hstep]
        intro y hy
        rcases List.mem_append.mp hy with hyp | hyr
        · rcases hcov y hyp with ⟨x, hx, hxk⟩
          exact ⟨_, List.mem_map_of_mem _ hx, by rw [key x]; exact hxk⟩
        · have hyr' : y = r := List.mem_singleton.mp hyr
          refine ⟨_, List.mem_map_of_mem _ hx0, ?_⟩
          rw [key x0, hx0k, hyr']
      have ih := dedup_fold_invariant n l (dedupStep n acc r) (processed ++ [r]) h1 h2 h3 h4
      rw [step_eq, happ]
      exact ih
    · have hnone : ∀ x ∈ acc, dkey n x ≠ dkey n r := by
        intro x hx he
        exact hany (List.any_eq_true.mpr ⟨x, hx, by simpa using he⟩)
      have hstep : dedupStep n acc r = acc ++ [r] := by
        simp [dedupStep, hany]
      have h1 : (dedupStep n acc r).Pairwise (fun a b => dkey n a ≠ dkey n b) := by
        rw [hstep, List.pairwise_append]
        refine ⟨hpair, List.pairwise_singleton _ _, ?_⟩
        intro a ha b hb
        have hbr : b = r := List.mem_singleton.mp hb
        rw [hbr]
        exact hnone a ha
      have h2 : ∀ x ∈ dedupStep n acc r, x ∈ processed ++ [r] := by
        rw [hstep]
        intro x hx
        rcases List.mem_append.mp hx with h | h
        · exact List.mem_append_left _ (hmem x h)
        · exact List.mem_append_right _ h
      have h3 : ∀ x ∈ dedupStep n acc r, ∀ y ∈ processed ++ [r],
          dkey n y = dkey n x → y.score ≤ x.score := by
        rw [hstep]
        intro x hx y hy hk
        rcases List.mem_append.mp hx with hxa | hxr
        · rcases List.mem_append.mp hy with hyp | hyr
          · exact hmax x hxa y hyp hk
          · have hyr' : y = r := List.mem_singleton.mp hyr
            exact absurd (hyr' ▸ hk).symm (hnone x hxa)
        · have hxr' : x = r := List.mem_singleton.mp hxr
          rcases List.mem_append.mp hy with hyp | hyr
          · rcases hcov y hyp with ⟨z, hz, hzk⟩
            have : dkey n z = dkey n r := by rw [hzk, hk, hxr']
            exact absurd this (hnone z hz)
          · have hyr' : y = r := List.mem_singleton.mp hyr
            rw [hyr', hxr']
      have h4 : ∀ y ∈ processed ++ [r], ∃ x ∈ dedupStep n acc r, dkey n x = dkey n y := by
        rw [hstep]
        intro y hy
        rcases List.mem_append.mp hy with hyp | hyr
        · rcases hcov y hyp with ⟨x, hx, hxk⟩
          exact ⟨x, List.mem_append_left _ hx, hxk⟩
        · have hyr' : y = r := List.mem_singleton.mp hyr
          refine ⟨r, List.mem_append_right _ (List.mem_singleton_self r), ?_⟩
          rw [hyr']
      have ih := dedup_fold_invariant n l (dedupStep n acc r) (processed ++ [r]) h1 h2 h3 h4
      rw [step_eq, happ]
      exact ih



lemma dedupBy_pairwise_keys (n : Nat) (l : List Hit) :
    (dedupBy n l).Pairwise (fun a b => dkey n a ≠ dkey n b) := by
  rw [dedupBy_eq_foldl]
  exact (dedup_fold_invariant n l [] [] (by simp) (by simp) (by simp) (by simp)).1

lemma dedupBy_subset (n : Nat) (l : List Hit) : ∀ x ∈ dedupBy n l, x ∈ l := by
  rw [dedupBy_eq_foldl]
  have h := (dedup_fold_invariant n l [] [] (by simp) (by simp) (by simp) (by simp)).2.1
  simpa using h

lemma dedupBy_max (n : Nat) (l : List Hit) :
    ∀ x ∈ dedupBy n l, ∀ y ∈ l, dkey n y = dkey n x → y.score ≤ x.score := by
  rw [dedupBy_eq_foldl]
  have h := (dedup_fold_invariant n l [] [] (by simp) (by simp) (by simp) (by simp)).2.2.1
  simpa using h

lemma sortByScoreDesc_sorted (l : List Hit) : (sortByScoreDesc l).Pairwise scoreGE :=
  List.sorted_insertionSort scoreGE l

lemma sortByScoreDesc_perm (l : List Hit) : List.Perm (sortByScoreDesc l) l :=
  List.perm_insertionSort scoreGE l

lemma sortByScoreDesc_stable {a b : Hit} {l : List Hit} (hab : scoreGE a b)
    (h : List.Sublist [a, b] l) : List.Sublist [a, b] (sortByScoreDesc l) :=
  List.pair_sublist_insertionSort hab h

lemma dkey_applyBoosts (n : Nat) (q : String) (r : Hit) :
    dkey n (applyBoosts q r) = dkey n r := rfl

/-- C7: `fusion_rank` output is sorted descending by final score; the
sort is stable (entries with exactly equal scores keep their relative
order from the deduplicated list, which preserves first-occurrence
order of the input); no two output entries share an identical
`(source, content[:100])` pair; and deduplication keeps, for each key,
an input entry of maximal score. -/
theorem fusion_rank_sorted_stable_unique (results : List Hit) (q : String) :
    (fusionRank results q).Pairwise (fun a b => b.score ≤ a.score) ∧
    (fusionRank results q).Pairwise
      (fun a b => (a.source, strTake a.content 100) ≠ (b.source, strTake b.content 100)) ∧
    (∀ a b, List.Sublist [a, b] ((dedupBy 100 results).map (applyBoosts q)) →
      a.score = b.score → List.Sublist [a, b] (fusionRank results q)) ∧
    (∀ x ∈ dedupBy 100 results, x ∈ results ∧
      ∀ y ∈ results, dkey 100 y = dkey 100 x → y.score ≤ x.score) := by
  have hkeys : ((dedupBy 100 results).map (applyBoosts q)).Pairwise
      (fun a b => dkey 100 a ≠ dkey 100 b) := by
    rw [List.pairwise_map]
    refine (dedupBy_pairwise_keys 100 results).imp ?_
    intro a b hab
    rw [dkey_applyBoosts, dkey_applyBoosts]
    exact hab
  have hpairne : ((dedupBy 100 results).map (applyBoosts q)).Pairwise
      (fun a b => (a.source, strTake a.content 100) ≠ (b.source, strTake b.content 100)) := by
    refine hkeys.imp ?_
    intro a b hab hcontra
    apply hab
    simp only [dkey]
    rw [(Prod.mk.injEq _ _ _ _).mp hcontra |>.1, (Prod.mk.injEq _ _ _ _).mp hcontra |>.2]
  by_cases hres : results.isEmpty
  · have : results = [] := List.isEmpty_iff.mp hres
    subst this
    refine ⟨?_, ?_, ?_, ?_⟩ <;> simp [fusionRank, dedupBy]
  · have hfr : fusionRank results q = sortByScoreDesc ((dedupBy 100 results).map (applyBoosts q)) := by
      simp [fusionRank, hres]
    refine ⟨?_, ?_, ?_, ?_⟩
    · rw [hfr]
      exact sortByScoreDesc_sorted _
    · rw [hfr]
      exact ((sortByScoreDesc_perm _).pairwise_iff (fun hab => (Ne.symm hab : _))).mpr hpairne
    · intro a b hsub hba
      rw [hfr]
      exact sortByScoreDesc_stable (le_of_eq hba.symm) hsub
    · intro x hx
      exact ⟨dedupBy_subset 100 results x hx, dedupBy_max 100 results x hx⟩



/-- C7 witness: a three-hit list with one duplicate key and one exact
score tie: the tied pair keeps its order in the output, the output is
sorted, and the duplicate kept is the higher-scoring one. -/
theorem fusion_rank_sorted_stable_unique_witness :
    List.Sublist [w7a, w7b] (fusionRank w7 "zz") ∧
    (fusionRank w7 "zz").Pairwise (fun a b => b.score ≤ a.score) ∧
    w7dup.score ≤ w7a.score := by
  refine ⟨?_, ?_, ?_⟩
  · refine (fusion_rank_sorted_stable_unique w7 "zz").2.2.1 w7a w7b ?_ rfl
    rw [(by with_unfolding_all decide :
      (dedupBy 100 w7).map (applyBoosts "zz") = [w7a, w7b])]
  · exact (fusion_rank_sorted_stable_unique w7 "zz").1
  · exact ((fusion_rank_sorted_stable_unique w7 "zz").2.2.2 w7a
      (by with_unfolding_all decide)).2 w7dup (by with_unfolding_all decide)
      (by with_unfolding_all decide)


lemma fusionRank_mem (results : List Hit) (q : String) :
    ∀ x ∈ fusionRank results q, ∃ d ∈ dedupBy 100 results, x = applyBoosts q d := by
  intro x hx
  by_cases hres : results.isEmpty
  · simp [fusionRank, hres] at hx
  · simp only [fusionRank, hres, Bool.false_eq_true, if_false] at hx
    rw [sortByScoreDesc, List.mem_insertionSort] at hx
    rcases List.mem_map.mp hx with ⟨d, hd, hdx⟩
    exact ⟨d, hd, hdx.symm⟩

lemma applyBoosts_score_ge_kw (q : String) (r : Hit) (h : r.keywordMatch.isSome) :
    r.score + 0.05 ≤ (applyBoosts q r).score := by
  simp only [applyBoosts, h, if_true]
  split_ifs <;> [skip; skip; skip; skip; skip; skip; skip; skip] <;> linarith

lemma semanticSearchC_kw_none (env : Env) (q : String) (it : IndexType) (topK : Nat) :
    ∀ x ∈ (semanticSearchC env q it topK).1, x.keywordMatch = none := by
  intro x hx
  cases he : env.embed q with
  | error e => simp [semanticSearchC, he] at hx
  | ok v =>
    cases hq : env.query it v topK with
    | error e => simp [semanticSearchC, he, hq] at hx
    | ok ms =>
      simp only [semanticSearchC, he, hq] at hx
      rcases List.mem_map.mp hx with ⟨m, _, hmx⟩
      rw [← hmx]
      rfl

lemma kwLoop_mem (env : Env) (it : IndexType) (topK : Nat) :
    ∀ (kws : List String) (hits : List Hit) (cnt : Nat),
      kwLoop env it topK kws = .ok (hits, cnt) →
      ∀ x ∈ hits, ∃ kw ∈ kws, ∃ v ms m, env.embed kw = .ok v ∧
        env.query it v topK = .ok ms ∧ m ∈ ms ∧ x = mkKwHit it kw m
  | [], hits, cnt, heq, x => by
    simp only [kwLoop] at heq
    cases heq
    intro hx
    simp at hx
  | kw :: rest, hits, cnt, heq, x => by
    intro hx
    cases he : env.embed kw with
    | error e => simp [kwLoop, he] at heq
    | ok v =>
      cases hq : env.query it v topK with
      | error e => simp [kwLoop, he, hq] at heq
      | ok ms =>
        cases hrest : kwLoop env it topK rest with
        | error n => simp [kwLoop, he, hq, hrest] at heq
        | ok p =>
          simp only [kwLoop, he, hq, hrest, Except.ok.injEq, Prod.mk.injEq] at heq
          rw [← heq.1] at hx
          rcases List.mem_append.mp hx with hx1 | hx2
          · rcases List.mem_map.mp hx1 with ⟨m, hm, hmx⟩
            exact ⟨kw, List.mem_cons_self _ _, v, ms, m, he, hq,
              (List.mem_filter.mp hm).1, hmx.symm⟩
          · rcases kwLoop_mem env it topK rest p.1 p.2 (by rw [hrest]) x hx2 with
              ⟨kw', hkw', v', ms', m', h1, h2, h3, h4⟩
            exact ⟨kw', List.mem_cons_of_mem _ hkw', v', ms', m', h1, h2, h3, h4⟩

lemma keywordSearchC_mem (env : Env) (q : String) (it : IndexType) (topK : Nat) :
    ∀ x ∈ (keywordSearchC env q it topK).1, ∃ kw ∈ extractKeywords q,
      ∃ v ms m, env.embed kw = .ok v ∧ env.query it v topK = .ok ms ∧
        m ∈ ms ∧ x = mkKwHit it kw m := by
  intro x hx
  cases hl : kwLoop env it topK (extractKeywords q) with
  | error n => simp [keywordSearchC, hl] at hx
  | ok p =>
    simp only [keywordSearchC, hl] at hx
    have hx' : x ∈ sortByScoreDesc (dedupBy 50 p.1) := List.take_subset _ _ hx
    rw [sortByScoreDesc, List.mem_insertionSort] at hx'
    have hx'' : x ∈ p.1 := dedupBy_subset 50 p.1 x hx'
    exact kwLoop_mem env it topK (extractKeywords q) p.1 p.2 (by rw [hl]) x hx''

lemma gather_mem (env : Env) (q : String) (k : Nat) :
    ∀ (its : List IndexType) (acc : List Hit × Nat),
      ∀ x ∈ (its.foldl (gatherStep env q k) acc).1, x ∈ acc.1 ∨ ∃ it ∈ its,
        x ∈ (semanticSearchC env q it (k / 2)).1 ∨ x ∈ (keywordSearchC env q it (k / 2)).1
  | [], acc, x, hx => Or.inl hx
  | it :: its, acc, x, hx => by
    rcases gather_mem env q k its (gatherStep env q k acc it) x hx with h | ⟨it', hit', h⟩
    · simp only [gatherStep] at h
      rcases List.mem_append.mp h with h1 | h2
      · rcases List.mem_append.mp h1 with h3 | h4
        · exact Or.inl h3
        · exact Or.inr ⟨it, List.mem_cons_self _ _, Or.inl h4⟩
      · exact Or.inr ⟨it, List.mem_cons_self _ _, Or.inr h2⟩
    · exact Or.inr ⟨it', List.mem_cons_of_mem _ hit', h⟩

lemma allResultsC_mem (env : Env) (q : String) (k : Nat) :
    ∀ x ∈ (allResultsC env q k).1, ∃ it,
      x ∈ (semanticSearchC env q it (k / 2)).1 ∨ x ∈ (keywordSearchC env q it (k / 2)).1 := by
  intro x hx
  rcases gather_mem env q k (classifyQuery q) ([], 0) x hx with h | ⟨it, -, h⟩
  · simp at h
  · exact ⟨it, h⟩

/-- C10: every hit in the fusion output that carries a
`keyword_match` field came from the keyword path, whose score was the
raw vector similarity plus 0.1, and `fusion_rank` adds at least another
0.05 to it — so its final fused score exceeds the raw similarity by at
least 0.15. -/
theorem keyword_hit_total_boost (env : Env) (q : String) (k : Nat) (q' : String) (r : Hit)
    (hr : r ∈ fusionRank (allResultsC env q k).1 q') (hkw : r.keywordMatch.isSome) :
    ∃ it kw v ms m, kw ∈ extractKeywords q ∧ env.embed kw = .ok v ∧
      env.query it v (k / 2) = .ok ms ∧ m ∈ ms ∧ r.keywordMatch = some kw ∧
      m.score + 0.15 ≤ r.score := by
  obtain ⟨d, hd, hrd⟩ := fusionRank_mem _ _ r hr
  have hpres : (applyBoosts q' d).keywordMatch = d.keywordMatch := rfl
  have hdkw : d.keywordMatch.isSome := by rw [hrd, hpres] at hkw; exact hkw
  have hdmem : d ∈ (allResultsC env q k).1 := dedupBy_subset _ _ d hd
  obtain ⟨it, hcase⟩ := allResultsC_mem env q k d hdmem
  rcases hcase with hsem | hkws
  · rw [semanticSearchC_kw_none env q it (k / 2) d hsem] at hdkw
    simp at hdkw
  · obtain ⟨kw, hkwmem, v, ms, m, hv, hms, hm, hdm⟩ := keywordSearchC_mem env q it (k / 2) d hkws
    refine ⟨it, kw, v, ms, m, hkwmem, hv, hms, hm, ?_, ?_⟩
    · rw [hrd, hpres, hdm]
      rfl
    · have h1 : d.score = m.score + 0.1 := by rw [hdm]; rfl
      have h2 : d.score + 0.05 ≤ (applyBoosts q' d).score := applyBoosts_score_ge_kw q' d hdkw
      rw [hrd]
      rw [h1] at h2
      calc m.score + 0.15 = m.score + 0.1 + 0.05 := by ring
        _ ≤ (applyBoosts q' d).score := h2

/-- C10 witness: the keyword hit appears in the fusion output at
exactly its raw similarity plus 0.15. -/
theorem keyword_hit_total_boost_witness :
    ∃ it kw v ms m, kw ∈ extractKeywords "hello" ∧ env10.embed kw = .ok v ∧
      env10.query it v (8 / 2) = .ok ms ∧ m ∈ ms ∧ r10.keywordMatch = some kw ∧
      m.score + 0.15 ≤ r10.score :=
  keyword_hit_total_boost env10 "hello" 8 "hello" r10
    (by with_unfolding_all decide) (by with_unfolding_all decide)


lemma ifEmpty_ne_nil (sel : List IndexType) :
    (if sel.isEmpty then allIndexTypes else sel) ≠ [] := by
  split_ifs with h
  · decide
  · intro hc
    rw [hc] at h
    exact h rfl

lemma classifyQuery_ne_nil (q : String) : classifyQuery q ≠ [] :=
  ifEmpty_ne_nil _

lemma hybridSearchC_snd (env : Env) (q : String) (k : Nat) :
    (hybridSearchC env q k).2 = (allResultsC env q k).2 := by
  simp only [hybridSearchC]
  split_ifs <;> rfl

lemma semanticSearchC_count (env : Env) (q : String) (it : IndexType) (k : Nat)
    (hembed : ∀ s, ∃ v, env.embed s = .ok v)
    (hquery : ∀ it v n, ∃ ms, env.query it v n = .ok ms) :
    (semanticSearchC env q it k).2 = 1 := by
  obtain ⟨v, hv⟩ := hembed q
  obtain ⟨ms, hq⟩ := hquery it v k
  simp [semanticSearchC, hv, hq]

lemma kwLoop_count (env : Env) (it : IndexType) (k : Nat)
    (hembed : ∀ s, ∃ v, env.embed s = .ok v)
    (hquery : ∀ it v n, ∃ ms, env.query it v n = .ok ms) :
    ∀ kws : List String, ∃ hits, kwLoop env it k kws = .ok (hits, kws.length)
  | [] => ⟨[], rfl⟩
  | kw :: rest => by
    obtain ⟨v, hv⟩ := hembed kw
    obtain ⟨ms, hq⟩ := hquery it v k
    obtain ⟨hits, hrest⟩ := kwLoop_count env it k hembed hquery rest
    refine ⟨(ms.filter (fun m => strIn (strLower kw) (strLower m.text))).map
      (mkKwHit it kw) ++ hits, ?_⟩
    simp [kwLoop, hv, hq, hrest, List.length_cons, Nat.add_comm]

lemma keywordSearchC_count (env : Env) (q : String) (it : IndexType) (k : Nat)
    (hembed : ∀ s, ∃ v, env.embed s = .ok v)
    (hquery : ∀ it v n, ∃ ms, env.query it v n = .ok ms) :
    (keywordSearchC env q it k).2 = (extractKeywords q).length := by
  obtain ⟨hits, hl⟩ := kwLoop_count env it k hembed hquery (extractKeywords q)
  simp [keywordSearchC, hl]

lemma gather_count (env : Env) (q : String) (k : Nat)
    (hembed : ∀ s, ∃ v, env.embed s = .ok v)
    (hquery : ∀ it v n, ∃ ms, env.query it v n = .ok ms) :
    ∀ (its : List IndexType) (acc : List Hit × Nat),
      (its.foldl (gatherStep env q k) acc).2 =
        acc.2 + its.length * (1 + (extractKeywords q).length)
  | [], acc => by simp
  | it :: its, acc => by
    rw [List.foldl_cons, gather_count env q k hembed hquery its]
    simp only [gatherStep, semanticSearchC_count env q it (k / 2) hembed hquery,
      keywordSearchC_count env q it (k / 2) hembed hquery, List.length_cons]
    ring

/-- C3 (amended): `hybrid_search` consults no cache — under collaborators
that answer every call, each invocation (a repeated identical one
included, since the function is pure in its environment and query)
queries the Vector Store once per selected index for the semantic path
plus once per extracted keyword per index, and that count is never
zero. -/
theorem retrieve_always_queries_store (env : Env) (q : String) (k : Nat)
    (hembed : ∀ s, ∃ v, env.embed s = .ok v)
    (hquery : ∀ it v n, ∃ ms, env.query it v n = .ok ms) :
    (hybridSearchC env q k).2 =
      (classifyQuery q).length * (1 + (extractKeywords q).length) ∧
    0 < (hybridSearchC env q k).2 := by
  have hc : (hybridSearchC env q k).2 =
      (classifyQuery q).length * (1 + (extractKeywords q).length) := by
    rw [hybridSearchC_snd]
    unfold allResultsC
    rw [gather_count env q k hembed hquery]
    simp
  refine ⟨hc, ?_⟩
  rw [hc]
  have h1 : 0 < (classifyQuery q).length :=
    List.length_pos.mpr (classifyQuery_ne_nil q)
  have h2 : 0 < 1 + (extractKeywords q).length := by omega
  exact Nat.mul_pos h1 h2

/-- C3 counterexample: `hybrid_search` has no cache layer, so a repeated
identical call re-invokes the Vector Store: with all three indexes
selected and one extracted keyword, every call — the second included —
makes 6 Vector Store invocations, not 0. (Output bytes are equal
across calls only because the function is pure.) -/
theorem retrieve_no_cache_counterexample :
    (hybridSearchC env3 "hello" 8).2 = 6 ∧ (6 : Nat) ≠ 0 := by
  with_unfolding_all decide

/-- C3 witness for the amended claim, at the same environment. -/
theorem retrieve_always_queries_store_witness :
    (hybridSearchC env3 "hello" 8).2 =
      (classifyQuery "hello").length * (1 + (extractKeywords "hello").length) ∧
    0 < (hybridSearchC env3 "hello" 8).2 :=
  retrieve_always_queries_store env3 "hello" 8 (fun _ => ⟨[1], rfl⟩) (fun _ _ _ => ⟨[], rfl⟩)


section PyDict

variable {α : Type}

lemma pyGet_nil (k : String) : pyGet ([] : List (String × α)) k = none := rfl

lemma pyGet_cons (e : String × α) (t : List (String × α)) (k : String) :
    pyGet (e :: t) k = if (e.1 == k) = true then some e.2 else pyGet t k := by
  by_cases h : (e.1 == k) = true
  · rw [if_pos h]
    unfold pyGet
    rw [@List.find?_cons_of_pos _ (fun x => x.1 == k) e t h]
    rfl
  · rw [if_neg h]
    unfold pyGet
    rw [@List.find?_cons_of_neg _ (fun x => x.1 == k) e t h]

lemma pyGet_eq_none_iff (l : List (String × α)) (k : String) :
    pyGet l k = none ↔ ∀ e ∈ l, e.1 ≠ k := by
  simp [pyGet, List.find?_eq_none]

lemma pyGet_append (l₁ l₂ : List (String × α)) (k : String) :
    pyGet (l₁ ++ l₂) k =
      match pyGet l₁ k with
      | some v => some v
      | none => pyGet l₂ k := by
  induction l₁ with
  | nil => rw [List.nil_append, pyGet_nil]
  | cons e t ih =>
    rw [List.cons_append, pyGet_cons, pyGet_cons]
    by_cases h : (e.1 == k) = true
    · rw [if_pos h, if_pos h]
    · rw [if_neg h, if_neg h, ih]

lemma pyGet_map_setf_ne (k : String) (v : α) (k' : String) (h : k' ≠ k) :
    ∀ l : List (String × α),
      pyGet (l.map (fun e => if e.1 == k then (k, v) else e)) k' = pyGet l k'
  | [] => rfl
  | e :: t => by
    rw [List.map_cons]
    by_cases hek : e.1 = k
    · have h1 : (e.1 == k) = true := by simpa using hek
      rw [if_pos h1, pyGet_cons, pyGet_cons]
      have h2 : (((k, v) : String × α).1 == k') = false := by
        simpa using Ne.symm h
      have h3 : (e.1 == k') = false := by
        rw [hek]
        simpa using Ne.symm h
      rw [if_neg (show ¬ (((k, v) : String × α).1 == k') = true by simp [h2]),
        if_neg (show ¬ (e.1 == k') = true by simp [h3])]
      exact pyGet_map_setf_ne k v k' h t
    · have h1 : (e.1 == k) = false := by simpa using hek
      rw [if_neg (show ¬ (e.1 == k) = true by simp [h1]), pyGet_cons, pyGet_cons]
      by_cases he : (e.1 == k') = true
      · rw [if_pos he, if_pos he]
      · rw [if_neg he, if_neg he]
        exact pyGet_map_setf_ne k v k' h t

lemma pyGet_map_setf_self (k : String) (v : α) :
    ∀ l : List (String × α), l.any (fun e => e.1 == k) = true →
      pyGet (l.map (fun e => if e.1 == k then (k, v) else e)) k = some v
  | e :: t, hany => by
    rw [List.map_cons]
    by_cases hek : e.1 = k
    · have h1 : (e.1 == k) = true := by simpa using hek
      rw [if_pos h1, pyGet_cons, if_pos (show (((k, v) : String × α).1 == k) = true by simp)]
    · have h1 : (e.1 == k) = false := by simpa using hek
      have ht : t.any (fun e => e.1 == k) = true := by
        simpa [List.any_cons, h1] using hany
      rw [if_neg (show ¬ (e.1 == k) = true by simp [h1]), pyGet_cons,
        if_neg (show ¬ (e.1 == k) = true by simp [h1])]
      exact pyGet_map_setf_self k v t ht

lemma pyGet_pySet_self (l : List (String × α)) (k : String) (v : α) :
    pyGet (pySet l k v) k = some v := by
  unfold pySet
  split_ifs with hany
  · exact pyGet_map_setf_self k v l hany
  · rw [pyGet_append]
    have hnone : pyGet l k = none := by
      rw [pyGet_eq_none_iff]
      intro e he hek
      exact (by simpa using hany : ¬ l.any (fun e => e.1 == k) = true)
        (List.any_eq_true.mpr ⟨e, he, by simpa using hek⟩)
    rw [hnone, pyGet_cons, if_pos (by simp)]

lemma pyGet_pySet_ne (l : List (String × α)) (k : String) (v : α) (k' : String)
    (h : k' ≠ k) : pyGet (pySet l k v) k' = pyGet l k' := by
  unfold pySet
  split_ifs with hany
  · exact pyGet_map_setf_ne k v k' h l
  · rw [pyGet_append]
    have hone : pyGet [(k, v)] k' = none := by
      rw [pyGet_cons, if_neg (by simpa using Ne.symm h), pyGet_nil]
    rw [hone]
    cases hfind : pyGet l k' <;> rfl

lemma pyGet_pyDel_self (l : List (String × α)) (k : String) :
    pyGet (pyDel l k) k = none := by
  rw [pyGet_eq_none_iff]
  intro e he
  have := (List.mem_filter.mp he).2
  simp only [Bool.not_eq_true'] at this
  simpa using this

lemma pyGet_pyDel_ne (l : List (String × α)) (k k' : String) (h : k' ≠ k) :
    pyGet (pyDel l k) k' = pyGet l k' := by
  unfold pyDel
  induction l with
  | nil => rfl
  | cons e t ih =>
    rw [List.filter_cons]
    by_cases hek : e.1 = k
    · have h1 : (e.1 == k) = true := by simpa using hek
      have h2 : (e.1 == k') = false := by
        rw [hek]
        simpa using Ne.symm h
      rw [if_neg (show ¬ (!(e.1 == k)) = true by simp [h1]), pyGet_cons,
        if_neg (show ¬ (e.1 == k') = true by simp [h2])]
      exact ih
    · have h1 : (e.1 == k) = false := by simpa using hek
      rw [if_pos (show (!(e.1 == k)) = true by simp [h1]), pyGet_cons, pyGet_cons]
      by_cases he : (e.1 == k') = true
      · rw [if_pos he, if_pos he]
      · rw [if_neg he, if_neg he]
        exact ih

lemma length_pySet_le (l : List (String × α)) (k : String) (v : α) :
    (pySet l k v).length ≤ l.length + 1 := by
  unfold pySet
  split_ifs <;> simp

lemma length_pyDel_lt (l : List (String × α)) (k : String) (e : String × α)
    (he : e ∈ l) (hek : e.1 = k) : (pyDel l k).length < l.length := by
  unfold pyDel
  apply List.length_filter_lt_length_iff_exists.mpr
  exact ⟨e, he, by simp [hek]⟩

end PyDict



lemma foldl_oldest_spec :
    ∀ (t : List (String × MemEntry)) (best : String × MemEntry),
      (t.foldl (fun best x => if x.2.timestamp < best.2.timestamp then x else best) best = best ∨
        t.foldl (fun best x => if x.2.timestamp < best.2.timestamp then x else best) best ∈ t) ∧
      (t.foldl (fun best x => if x.2.timestamp < best.2.timestamp then x else best)
          best).2.timestamp ≤ best.2.timestamp ∧
      ∀ m ∈ t, (t.foldl (fun best x => if x.2.timestamp < best.2.timestamp then x else best)
          best).2.timestamp ≤ m.2.timestamp
  | [], best => by simp
  | x :: t, best => by
    rw [List.foldl_cons]
    by_cases hx : x.2.timestamp < best.2.timestamp
    · rw [if_pos hx]
      obtain ⟨hmem, hle, hmin⟩ := foldl_oldest_spec t x
      refine ⟨?_, le_trans hle (le_of_lt hx), ?_⟩
      · rcases hmem with h | h
        · refine Or.inr ?_
          rw [h]
          exact List.mem_cons_self x t
        · exact Or.inr (List.mem_cons_of_mem x h)
      · intro m hm
        rcases List.mem_cons.mp hm with h | h
        · rw [h]
          exact hle
        · exact hmin m h
    · rw [if_neg hx]
      obtain ⟨hmem, hle, hmin⟩ := foldl_oldest_spec t best
      refine ⟨?_, hle, ?_⟩
      · rcases hmem with h | h
        · exact Or.inl h
        · exact Or.inr (List.mem_cons_of_mem x h)
      · intro m hm
        rcases List.mem_cons.mp hm with h | h
        · rw [h]
          exact le_trans hle (le_of_not_lt hx)
        · exact hmin m h

lemma firstOldest_spec (c : List (String × MemEntry)) (old : String × MemEntry)
    (h : firstOldest c = some old) :
    old ∈ c ∧ ∀ m ∈ c, old.2.timestamp ≤ m.2.timestamp := by
  cases c with
  | nil => cases h
  | cons e t =>
    have heq : t.foldl (fun best x => if x.2.timestamp < best.2.timestamp then x else best) e
        = old := by
      have := h
      unfold firstOldest at this
      exact Option.some.inj this
    obtain ⟨hmem, hle, hmin⟩ := foldl_oldest_spec t e
    rw [heq] at hmem hle hmin
    constructor
    · rcases hmem with hh | hh
      · rw [hh]
        exact List.mem_cons_self e t
      · exact List.mem_cons_of_mem e hh
    · intro m hm
      rcases List.mem_cons.mp hm with hh | hh
      · rw [hh]
        exact hle
      · exact hmin m hh

lemma foldl_oldest_head (e : String × MemEntry) :
    ∀ t : List (String × MemEntry), (∀ x ∈ t, ¬ x.2.timestamp < e.2.timestamp) →
      t.foldl (fun best x => if x.2.timestamp < best.2.timestamp then x else best) e = e
  | [], _ => rfl
  | x :: t, h => by
    rw [List.foldl_cons, if_neg (h x (List.mem_cons_self x t))]
    exact foldl_oldest_head e t (fun y hy => h y (List.mem_cons_of_mem x hy))

lemma firstOldest_head (e : String × MemEntry) (t : List (String × MemEntry))
    (h : ∀ x ∈ t, ¬ x.2.timestamp < e.2.timestamp) : firstOldest (e :: t) = some e :=
  congrArg some (foldl_oldest_head e t h)

lemma smartCacheGet_none_of_memory_miss (st : PerfState) (key category : String) (now : Nat)
    (h : pyGet st.memoryCache ("mem:" ++ key) = none) :
    (smartCacheGet st key category now).1 = none := by
  simp [smartCacheGet, cacheManagerGet, h]

/-- C8: the fast in-process cache never exceeds its capacity of 200
entries, and writing a new key into a full cache first evicts exactly
the entry with the oldest timestamp: the evicted key reads as `none`,
the new key reads as the new entry, every other key is untouched, and a
subsequent `smart_cache_get` of the evicted key is a miss (returning
`None` — the shared tier behind it is unreachable). -/
theorem memory_cache_capacity_eviction (c : List (String × MemEntry)) (k v : String)
    (now : Nat) :
    (c.length ≤ maxMemoryCacheSize → (setMemoryCache c k v now).length ≤ maxMemoryCacheSize) ∧
    (c.length = maxMemoryCacheSize → pyGet c k = none →
      ∀ old, firstOldest c = some old →
        old ∈ c ∧ (∀ m ∈ c, old.2.timestamp ≤ m.2.timestamp) ∧
        pyGet (setMemoryCache c k v now) old.1 = none ∧
        pyGet (setMemoryCache c k v now) k = some ⟨v, now, 0⟩ ∧
        (∀ k', k' ≠ old.1 → k' ≠ k →
          pyGet (setMemoryCache c k v now) k' = pyGet c k') ∧
        (∀ (ap : List (String × List Nat)) (rd : List (String × String))
          (m1 m2 m3 : Nat) (key' category : String) (now' : Nat),
          "mem:" ++ key' = old.1 →
          (smartCacheGet ⟨setMemoryCache c k v now, ap, rd, m1, m2, m3⟩
            key' category now').1 = none)) := by
  constructor
  · intro hlen
    unfold setMemoryCache
    split_ifs with hcap
    · cases hc : firstOldest c with
      | none =>
        cases c with
        | nil => simp [maxMemoryCacheSize] at hcap
        | cons e t => exact absurd hc (by simp [firstOldest])
      | some old =>
        obtain ⟨hmem, -⟩ := firstOldest_spec c old hc
        have hdel : (pyDel c old.1).length < c.length :=
          length_pyDel_lt c old.1 old hmem rfl
        calc (pySet (pyDel c old.1) k ⟨v, now, 0⟩).length
            ≤ (pyDel c old.1).length + 1 := length_pySet_le _ _ _
          _ ≤ c.length := by omega
          _ ≤ maxMemoryCacheSize := hlen
    · calc (pySet c k ⟨v, now, 0⟩).length ≤ c.length + 1 := length_pySet_le _ _ _
        _ ≤ maxMemoryCacheSize := by
            have : c.length < maxMemoryCacheSize := lt_of_not_le hcap
            omega
  · intro hlen hk old hold
    obtain ⟨hmem, hmin⟩ := firstOldest_spec c old hold
    have holdk : old.1 ≠ k := by
      intro he
      have := (pyGet_eq_none_iff c k).mp hk old hmem
      exact this he
    have hset : setMemoryCache c k v now = pySet (pyDel c old.1) k ⟨v, now, 0⟩ := by
      unfold setMemoryCache
      rw [if_pos (le_of_eq hlen.symm), hold]
    have hgone : pyGet (setMemoryCache c k v now) old.1 = none := by
      rw [hset, pyGet_pySet_ne _ _ _ _ holdk, pyGet_pyDel_self]
    refine ⟨hmem, hmin, hgone, ?_, ?_, ?_⟩
    · rw [hset, pyGet_pySet_self]
    · intro k' hk1 hk2
      rw [hset, pyGet_pySet_ne _ _ _ _ hk2, pyGet_pyDel_ne _ _ _ hk1]
    · intro ap rd m1 m2 m3 key' category now' hkey
      apply smartCacheGet_none_of_memory_miss
      show pyGet (setMemoryCache c k v now) ("mem:" ++ key') = none
      rw [hkey]
      exact hgone



lemma wcache_length : wcache.length = 200 := by simp [wcache]

lemma wcache_cons : wcache = (w8key 0, ⟨"d", 0, 0⟩) ::
    ((List.range 199).map (fun i => (w8key (i + 1), ⟨"d", i + 1, 0⟩))) := by
  unfold wcache
  rw [show (200 : Nat) = 199 + 1 from rfl, List.range_succ_eq_map, List.map_cons, List.map_map]
  rfl

lemma wcache_fresh : pyGet wcache "mem:zz" = none := by
  rw [pyGet_eq_none_iff]
  intro e he
  simp only [wcache, List.mem_map] at he
  obtain ⟨i, -, rfl⟩ := he
  intro hcontra
  have hlen := congrArg String.length hcontra
  have h1 : (String.mk [Char.ofNat (33 + i)]).length = 1 := rfl
  have h2 : ("mem:" : String).length = 4 := rfl
  have h3 : ("mem:zz" : String).length = 6 := rfl
  rw [show ((w8key i, (⟨"d", i, 0⟩ : MemEntry)).1) = w8key i from rfl] at hlen
  rw [w8key, String.length_append, h1, h2, h3] at hlen
  omega

lemma wcache_oldest : firstOldest wcache = some (w8key 0, ⟨"d", 0, 0⟩) := by
  rw [wcache_cons]
  apply firstOldest_head
  intro x hx
  rcases List.mem_map.mp hx with ⟨i, -, rfl⟩
  simp

/-- C8 witness: a concrete full cache of 200 entries with the oldest
timestamp at key `w8key 0`: writing the fresh key `"mem:zz"` keeps the
size at capacity, evicts `w8key 0`, stores the new entry, and a
subsequent `smart_cache_get` of the evicted key misses. -/
theorem memory_cache_capacity_eviction_witness :
    (setMemoryCache wcache "mem:zz" "v" 1000).length ≤ maxMemoryCacheSize ∧
    pyGet (setMemoryCache wcache "mem:zz" "v" 1000) (w8key 0) = none ∧
    pyGet (setMemoryCache wcache "mem:zz" "v" 1000) "mem:zz" = some ⟨"v", 1000, 0⟩ ∧
    (smartCacheGet ⟨setMemoryCache wcache "mem:zz" "v" 1000, [], [], 0, 0, 0⟩
      "!" "warm" 2000).1 = none := by
  have h := memory_cache_capacity_eviction wcache "mem:zz" "v" 1000
  have hlen : wcache.length = maxMemoryCacheSize := wcache_length
  obtain ⟨hmem, hmin, hgone, hnew, hframe, hread⟩ :=
    h.2 hlen wcache_fresh _ wcache_oldest
  have hkey : "mem:" ++ "!" = (w8key 0, (⟨"d", 0, 0⟩ : MemEntry)).1 := by decide
  exact ⟨h.1 (le_of_eq hlen), hgone, hnew, hread [] [] 0 0 0 "!" "warm" 2000 hkey⟩

end IsaacMineo
